import Mathlib

/-!
Verification of the acmetool state-reconciler core against its
natural-language specification.

The Go source is shallowly embedded: pure functions become Lean functions,
map/slice state becomes explicit lists, timestamps become `Int` nanosecond
counts (Go `time.Time`/`time.Duration`), DER certificate blobs become `Nat`
handles interpreted by an explicit `parse` oracle standing for
`x509.ParseCertificate`, and the external collaborators (ACME client,
filesystem, randomness) become explicit parameters.
-/

namespace AcmeSpec

/-- Result of x509.ParseCertificate on an end-entity certificate, restricted
to the fields the reconciler reads: the validity window (NotBefore/NotAfter,
in nanoseconds) and the SAN DNSNames. -/
structure XCert where
  notBefore : Int
  notAfter : Int
  dnsNames : List String
deriving Repr, DecidableEq

/-- storage.Certificate: retrieval URL, chain of DER blobs (end-entity
first), reference to the private key if known, download flag. Blobs are
abstracted as `Nat` handles interpreted by a parse oracle. -/
structure Certificate where
  url : String
  certificates : List Nat
  key : Option Nat
  cached : Bool
deriving Repr, DecidableEq

/-- storage.Target with the nested satisfy/request sections flattened:
Satisfy.Names, Request.Names, the implicitNames reserialization marker,
Request.Provider and Priority. -/
structure Target where
  satisfyNames : List String
  requestNames : List String
  implicitNames : Bool
  provider : String
  priority : Int
deriving Repr, DecidableEq

/-- One nanosecond-count day, i.e. Go 24*time.Hour. -/
def day : Int := 86400 * 1000000000

/-- storage.renewTime: renewSpan = validityPeriod/3 capped at 30 days
(Go integer division truncates toward zero, hence Int.tdiv); the renewal
moment is notAfter - renewSpan. -/
def renewTime (notBefore notAfter : Int) : Int :=
  let validityPeriod := notAfter - notBefore
  let renewSpan := Int.tdiv validityPeriod 3
  let renewSpan2 := if 30 * day < renewSpan then 30 * day else renewSpan
  notAfter - renewSpan2

/-- Store.certificateNeedsRenewing: false when the chain is empty or the end
certificate does not parse, otherwise !now.Before(renewTime ...), i.e.
renewTime ≤ now. `now` stands for time.Now(). -/
def certificateNeedsRenewing (parse : Nat → Option XCert) (now : Int)
    (c : Certificate) : Bool :=
  if c.certificates.length = 0 then false
  else
    match parse (c.certificates.headD 0) with
    | none => false
    | some cc => !decide (now < renewTime cc.notBefore cc.notAfter)

/-- Store.certBetterThan: false when a's chain is not longer than b's or b's
chain is empty; otherwise parse both end certificates — if a parses and b
does not, a wins; if either other parse pattern fails, a loses; if both
parse, a wins iff its NotAfter is strictly later. -/
def certBetterThan (parse : Nat → Option XCert) (a b : Certificate) : Bool :=
  if a.certificates.length ≤ b.certificates.length ∨ b.certificates.length = 0 then
    false
  else
    match parse (a.certificates.headD 0), parse (b.certificates.headD 0) with
    | some ac, some bc => decide (bc.notAfter < ac.notAfter)
    | some _, none => true
    | none, _ => false

/-- Store.doesCertSatisfy: requires a non-empty chain, a known private key
and a parseable end certificate; then every name in the target's
Satisfy.Names must be literally present in the certificate's DNSNames
(Go builds a map keyed by the exact DNSNames strings and looks each
satisfy name up in it). -/
def doesCertSatisfy (parse : Nat → Option XCert) (c : Certificate)
    (t : Target) : Bool :=
  if c.certificates.length = 0 then false
  else if c.key.isNone then false
  else
    match parse (c.certificates.headD 0) with
    | none => false
    | some cc => t.satisfyNames.all fun n => cc.dnsNames.contains n

/-- Store.findBestCertificateSatisfying: fold over the certificate map
(modelled as a list in iteration order), keeping the first satisfying
certificate and replacing it whenever a later one both satisfies the target
and is certBetterThan the current best. Returns none where Go returns the
"no certificate satisifes this target" error. -/
def findBestCertificateSatisfying (parse : Nat → Option XCert)
    (certs : List Certificate) (t : Target) : Option Certificate :=
  certs.foldl
    (fun best c =>
      match best with
      | none => if doesCertSatisfy parse c t then some c else none
      | some b =>
          if doesCertSatisfy parse c t && certBetterThan parse c b then some c
          else some b)
    none

/-- Inner loop of Store.disjoinTargets for one target: walk its
Satisfy.Names; each name not yet present in the hostname→target mapping is
claimed (added to the mapping with this target's index) and appended to the
target's ReducedNames. The mapping is an association list standing for the
Go map. -/
def claimNames (idx : Nat) :
    List (String × Nat) → List String → List String × List (String × Nat)
  | m, [] => ([], m)
  | m, n :: rest =>
    if (m.lookup n).isSome then claimNames idx m rest
    else
      let p := claimNames idx ((n, idx) :: m) rest
      (n :: p.1, p.2)

/-- Outer loop of Store.disjoinTargets over the (sorted) target list,
threading the hostname→target mapping; targets are identified by their
position in the list. Returns each target's ReducedNames plus the final
mapping. -/
def disjoinAux :
    List (List String) → Nat → List (String × Nat) →
      List (List String) × List (String × Nat)
  | [], _, m => ([], m)
  | t :: ts, idx, m =>
    let p := claimNames idx m t
    let q := disjoinAux ts (idx + 1) p.2
    (p.1 :: q.1, q.2)

/-- Store.disjoinTargets applied to the sorted target list (each target
abstracted to its Satisfy.Names): starts from an empty mapping. The claim
proved about it holds for every input order, hence in particular for the
targetGt-sorted order the Go code produces. -/
def disjoinTargets (ts : List (List String)) :
    List (List String) × List (String × Nat) :=
  disjoinAux ts 0 []

/-- Modelled from the spec: the helper containsName is called by
RemoveTargetHostname and findTargetWithAllNames but its body is not among
the provided sources. The spec's superset-match and name-stripping language,
and the exact string comparison used by removeStringFromList in the same
file, imply plain list membership with exact string equality. -/
def containsName (names : List String) (name : String) : Bool :=
  names.contains name

/-- storage.removeStringFromList: keep every element different from s. -/
def removeStringFromList (ss : List String) (s : String) : List String :=
  ss.filter fun x => !(x == s)

/-- Store.findTargetWithAllNames: first target (in map iteration order)
whose Satisfy.Names contains every one of the given names. -/
def findTargetWithAllNames (targets : List Target) (names : List String) :
    Option Target :=
  targets.find? fun t => names.all fun n => containsName t.satisfyNames n

/-- Store.makeUniqueTargetName: first satisfy name plus "-" (empty prefix
for an empty name list) followed by the lowercased, =-stripped base32 of a
random UUID; the random suffix is a parameter of the model. -/
def makeUniqueTargetName (tgt : Target) (randStr : String) : String :=
  (match tgt.satisfyNames with
   | [] => ""
   | n :: _ => n ++ "-") ++ randStr

/-- The record Store.serializeTarget writes: a copy of the target whose
Request.Names is nilled out when it was implicitly defaulted from
Satisfy.Names. -/
def serializeTargetRecord (tgt : Target) : Target :=
  if tgt.implicitNames then { tgt with requestNames := [] } else tgt

/-- Outcome of Store.AddTarget: an error, a nil return without any store
mutation, or the serialization of a record under a filename. -/
inductive AddTargetResult where
  | failure (msg : String)
  | noop
  | serialized (filename : String) (record : Target)
deriving Repr, DecidableEq

/-- Store.AddTarget: nil when Satisfy.Names is empty; error at the first
invalid hostname; nil when an existing target already contains all of the
new names; otherwise serialize under a fresh random filename. validHostname
lives in a source file not provided, so it is a parameter. -/
def addTarget (validHostname : String → Bool) (targets : List Target)
    (randStr : String) (tgt : Target) : AddTargetResult :=
  if tgt.satisfyNames.isEmpty then .noop
  else
    match tgt.satisfyNames.find? (fun n => !(validHostname n)) with
    | some n => .failure ("invalid hostname: " ++ n)
    | none =>
      match findTargetWithAllNames targets tgt.satisfyNames with
      | some _ => .noop
      | none =>
          .serialized (makeUniqueTargetName tgt randStr)
            (serializeTargetRecord tgt)

/-- A state-directory write performed by RemoveTargetHostname: deleting a
desired/ file or reserializing a target into one. -/
inductive DiskOp where
  | delete (filename : String)
  | serialize (filename : String) (record : Target)
deriving Repr, DecidableEq

/-- Store.RemoveTargetHostname over the loaded targets (filename/target
pairs): targets whose Satisfy.Names does not contain the hostname are left
untouched; otherwise the hostname is removed from Satisfy.Names and
Request.Names, and the target's desired/ file is deleted when Satisfy.Names
became empty, reserialized otherwise. Returns the in-memory targets after
the call plus the disk writes in iteration order. -/
def removeTargetHostname :
    List (String × Target) → String → List (String × Target) × List DiskOp
  | [], _ => ([], [])
  | (fn, tgt) :: rest, h =>
    let p := removeTargetHostname rest h
    if !containsName tgt.satisfyNames h then ((fn, tgt) :: p.1, p.2)
    else
      let tgt2 := { tgt with
        satisfyNames := removeStringFromList tgt.satisfyNames h,
        requestNames := removeStringFromList tgt.requestNames h }
      if tgt2.satisfyNames.isEmpty then
        ((fn, tgt2) :: p.1, .delete fn :: p.2)
      else
        ((fn, tgt2) :: p.1, .serialize fn tgt2 :: p.2)

/-- Target.String: fmt.Sprintf("Target(%s;%s;%d)", join of Satisfy.Names
with commas, Request.Provider, Priority). -/
def targetString (t : Target) : String :=
  "Target(" ++ String.intercalate "," t.satisfyNames ++ ";" ++ t.provider
    ++ ";" ++ toString t.priority ++ ")"

/-- TargetSpecificError.Error: "error satisfying target <T>: <e>". -/
def targetSpecificErrorString (t : Target) (e : String) : String :=
  "error satisfying target " ++ targetString t ++ ": " ++ e

/-- The accumulation loop of MultiError.Error: join the component messages
with "; \n", inserting the separator only before non-first components. -/
def multiErrorJoin (errs : List String) : String :=
  errs.foldl (fun s e => (if s ≠ "" then s ++ "; \n" else s) ++ e) ""

/-- MultiError.Error: the joined component messages behind the fixed
"the following errors occurred:" prefix. -/
def multiErrorString (errs : List String) : String :=
  "the following errors occurred:\n" ++ multiErrorJoin errs

/-- The per-target pass of Store.reconcile. needsWork abstracts "no best
satisfying certificate exists or it needs renewing" and request abstracts
requestCertificateForTarget (some message = failure). Each failing target
appends a (target, error) pair — a TargetSpecificError — to the MultiError;
the loop never stops early, and nil is returned when no error occurred. -/
def reconcileTargets (needsWork : Target → Bool)
    (request : Target → Option String) (targets : List Target) :
    Option (List (Target × String)) :=
  let merr := targets.foldl
    (fun merr t =>
      if needsWork t then
        match request t with
        | some e => merr ++ [(t, e)]
        | none => merr
      else merr)
    []
  if merr.length ≠ 0 then some merr else none

/-- The user-visible message of the MultiError returned by the target pass. -/
def reconcileErrorMessage (merr : List (Target × String)) : String :=
  multiErrorString (merr.map fun p => targetSpecificErrorString p.1 p.2)

/-- storage.Authorization: hostname, authorization URL, expiry (ns). -/
structure Authorization where
  name : String
  url : String
  expires : Int
deriving Repr, DecidableEq

/-- Authorization.IsValid: time.Now().Before(Expires); now is explicit. -/
def Authorization.isValid (a : Authorization) (now : Int) : Bool :=
  decide (now < a.expires)

/-- Store.determineNecessaryAuthorizations: build the set of Request.Names
(the Go map, modelled as a duplicate-free list), delete the name of every
currently valid authorization of the account, then walk Request.Names again
keeping the names still in the set, preserving their order. -/
def determineNecessaryAuthorizations (now : Int) (requestNames : List String)
    (auths : List Authorization) : List String :=
  let needed := requestNames.foldl
    (fun m n => if m.contains n then m else n :: m) []
  let needed2 := auths.foldl
    (fun m a => if a.isValid now then m.filter (fun x => !(x == a.name)) else m)
    needed
  requestNames.filter fun n => needed2.contains n

/-- State of the http-01 responder relevant to Start/selfTest/
RequestDetectedChan: the configured hostname, the key authorization KA, the
notifySupported flag (true after newHTTP), whether the buffered size-1
request-detection channel currently holds a notification, and whether Stop
has run. -/
structure HttpResponder where
  hostname : String
  ka : String
  notifySupported : Bool
  chanBuf : Bool
  stopped : Bool
deriving Repr, DecidableEq

/-- bytes.TrimSpace modelled on the character list: drop whitespace from
both ends of the body. -/
def trimSpace (s : String) : String :=
  String.mk (((s.data.dropWhile Char.isWhitespace).reverse.dropWhile
    Char.isWhitespace).reverse)

/-- httpResponder.Stop, abstracted to the state it leaves behind: listeners
stopped, webroot files removed, stop hook run. -/
def HttpResponder.stop (s : HttpResponder) : HttpResponder :=
  { s with stopped := true }

/-- httpResponder.selfTest: skipped (nil) when no hostname is configured;
otherwise the GET of the challenge URL (abstracted as an oracle: none for a
transport error, some (status, body) otherwise) must return 200 with a body
equal to KA after whitespace trimming. On success the notifySupported flag
is cleared unless the probe of the request-detection channel observed a
send, and the channel is drained. -/
def HttpResponder.selfTest (s : HttpResponder)
    (get : Option (Nat × String)) : Option HttpResponder :=
  if s.hostname = "" then some s
  else
    match get with
    | none => none
    | some (status, body) =>
      if status ≠ 200 then none
      else if trimSpace body ≠ s.ka then none
      else
        some { s with
          notifySupported := if s.chanBuf then s.notifySupported else false,
          chanBuf := false }

/-- httpResponder.Start: startActual always returns nil (listener and
webroot failures are ignored), then the self-test runs; on self-test
failure Stop is invoked and the error is returned. -/
def HttpResponder.start (s : HttpResponder) (get : Option (Nat × String)) :
    Except HttpResponder HttpResponder :=
  match s.selfTest get with
  | none => .error s.stop
  | some s2 => .ok s2

/-- httpResponder.RequestDetectedChan returns the non-nil channel iff
notifySupported is still set. -/
def HttpResponder.requestDetectedChanNonNil (s : HttpResponder) : Bool :=
  s.notifySupported

/-- The fields of a desired/ file after yaml.Unmarshal into storage.Target:
nested satisfy/request values plus the legacy top-level names/provider. -/
structure RawTarget where
  satisfyNames : List String
  requestNames : List String
  legacyNames : List String
  provider : String
  legacyProvider : String
  priority : Int
deriving Repr, DecidableEq

/-- The per-name step of storage.normalizeNames:
strings.TrimSuffix(strings.ToLower(n), "."). Lowercasing is modelled on the
character list (ASCII case mapping — hostnames are ASCII), and TrimSuffix's
removal of at most one trailing "." is the drop of a final dot character. -/
def normalizeName (n : String) : String :=
  let l := String.mk (n.data.map Char.toLower)
  if l.data.getLast? = some '.' then String.mk l.data.dropLast else l

/-- storage.normalizeNames: normalize each name in order and fail on the
first normalized name the hostname validator rejects. validHostname lives
in a source file not provided, so it is a parameter. -/
def normalizeNames (validHostname : String → Bool) :
    List String → Except String (List String)
  | [] => .ok []
  | n :: rest =>
    let n2 := normalizeName n
    if !validHostname n2 then .error ("invalid hostname: " ++ n2)
    else
      match normalizeNames validHostname rest with
      | .error e => .error e
      | .ok rs => .ok (n2 :: rs)

/-- The validated target produced by Store.validateTargetInner. The account
is abstracted to the identifier handed back by the resolver. -/
structure ValidatedTarget where
  satisfyNames : List String
  requestNames : List String
  implicitNames : Bool
  provider : String
  account : String
deriving Repr, DecidableEq

/-- Store.validateTargetInner: default Satisfy.Names from the legacy names
or, failing that, from the desired/ filename itself; default the provider
from the legacy field; normalize and validate the satisfy names (wrapping a
failure as "invalid target: <file>: <err>"); default Request.Names from the
normalized Satisfy.Names, marking them implicit; resolve the account from
the provider string (getAccountByProviderString, abstracted as an oracle
since it touches the accounts store). -/
def validateTargetInner (validHostname : String → Bool)
    (getAccount : String → Except String String) (desiredKey : String)
    (raw : RawTarget) : Except String ValidatedTarget :=
  let satisfy :=
    if raw.satisfyNames.isEmpty then
      if !raw.legacyNames.isEmpty then raw.legacyNames else [desiredKey]
    else raw.satisfyNames
  let provider := if raw.provider = "" then raw.legacyProvider else raw.provider
  match normalizeNames validHostname satisfy with
  | .error e => .error ("invalid target: " ++ desiredKey ++ ": " ++ e)
  | .ok satisfy2 =>
    let req := if raw.requestNames.isEmpty then (satisfy2, true)
               else (raw.requestNames, false)
    match getAccount provider with
    | .error e => .error e
    | .ok acct =>
        .ok { satisfyNames := satisfy2, requestNames := req.1,
              implicitNames := req.2, provider := provider, account := acct }

/-- The desired/ half of Store.loadTargets: validate each file in listing
order, aborting the whole load on the first error. -/
def loadTargets (validHostname : String → Bool)
    (getAccount : String → Except String String) :
    List (String × RawTarget) → Except String (List (String × ValidatedTarget))
  | [] => .ok []
  | (k, raw) :: rest =>
    match validateTargetInner validHostname getAccount k raw with
    | .error e => .error e
    | .ok t =>
      match loadTargets validHostname getAccount rest with
      | .error e => .error e
      | .ok ts => .ok ((k, t) :: ts)

/-- Written from the spec's words, for comparison with doesCertSatisfy
(claim C2): "SAN DNSNames cover satisfy.names (subset containment,
case-insensitive, trailing-dot stripped)". -/
def specSatisfyCovers (dnsNames satisfyNames : List String) : Bool :=
  satisfyNames.all fun n =>
    dnsNames.any fun d => normalizeName d == normalizeName n

end AcmeSpec

namespace AcmeSpec

/-! ## C1 — certBetterThan / best-certificate selection -/

/-- C1 counterexample. Two certificates with identical chain length (one
blob each), both parseable (blob n expires at time n, SAN "x"), end-entity
NotAfter 7 versus 3: certBetterThan is false in both directions because of
the `len(a.Certificates) <= len(b.Certificates)` guard, and
findBestCertificateSatisfying keeps the first certificate it meets — here
the earlier-expiring one — contradicting the claim that the later NotAfter
is strictly preferred for equal chain lengths. -/
theorem certBetterThan_equal_length_counterexample :
    certBetterThan (fun n => some ⟨0, (n : Int), ["x"]⟩)
        ⟨"a", [7], some 0, true⟩ ⟨"b", [3], some 0, true⟩ = false ∧
    certBetterThan (fun n => some ⟨0, (n : Int), ["x"]⟩)
        ⟨"b", [3], some 0, true⟩ ⟨"a", [7], some 0, true⟩ = false ∧
    findBestCertificateSatisfying (fun n => some ⟨0, (n : Int), ["x"]⟩)
        [⟨"b", [3], some 0, true⟩, ⟨"a", [7], some 0, true⟩]
        ⟨["x"], ["x"], true, "", 0⟩ = some ⟨"b", [3], some 0, true⟩ := by
  decide

/-- C1 (amended): for certificates whose end entities both parse and with b
non-empty, certBetterThan a b holds iff a's chain is strictly longer than
b's AND a's NotAfter is strictly later; consequently, for identical chain
lengths certBetterThan is false in both directions (no NotAfter preference
is applied), and a longer chain alone does not win without a later
NotAfter. -/
theorem certBetterThan_characterization (parse : Nat → Option XCert)
    (a b : Certificate) (ac bc : XCert)
    (hb : b.certificates ≠ [])
    (hpa : parse (a.certificates.headD 0) = some ac)
    (hpb : parse (b.certificates.headD 0) = some bc) :
    certBetterThan parse a b =
      (decide (b.certificates.length < a.certificates.length) &&
        decide (bc.notAfter < ac.notAfter)) ∧
    (a.certificates.length = b.certificates.length →
      certBetterThan parse a b = false ∧ certBetterThan parse b a = false) := by
  have hblen : b.certificates.length ≠ 0 := by
    simpa [List.length_eq_zero] using hb
  constructor
  · unfold certBetterThan
    rcases le_or_lt a.certificates.length b.certificates.length with h | h
    · rw [if_pos (Or.inl h)]
      rw [decide_eq_false (not_lt.mpr h)]
      simp
    · rw [if_neg (by rw [not_or]; exact ⟨not_le.mpr h, hblen⟩), hpa, hpb]
      simp [h]
  · intro heq
    constructor
    · unfold certBetterThan
      rw [if_pos (Or.inl (le_of_eq heq))]
    · unfold certBetterThan
      rw [if_pos (Or.inl (le_of_eq heq.symm))]

/-- Witness for the C1 theorem: a two-blob chain against a one-blob chain,
NotAfter 5 versus 3; the characterization evaluates to true on it. -/
theorem certBetterThan_characterization_witness :
    ((⟨"b", [3], some 0, true⟩ : Certificate).certificates ≠ []) ∧
    (certBetterThan (fun n => some ⟨0, (n : Int), []⟩)
        ⟨"a", [5, 6], some 0, true⟩ ⟨"b", [3], some 0, true⟩ =
      (decide ((⟨"b", [3], some 0, true⟩ : Certificate).certificates.length <
          (⟨"a", [5, 6], some 0, true⟩ : Certificate).certificates.length) &&
        decide ((3 : Int) < 5)) ∧
     ((⟨"a", [5, 6], some 0, true⟩ : Certificate).certificates.length =
        (⟨"b", [3], some 0, true⟩ : Certificate).certificates.length →
      certBetterThan (fun n => some ⟨0, (n : Int), []⟩)
          ⟨"a", [5, 6], some 0, true⟩ ⟨"b", [3], some 0, true⟩ = false ∧
      certBetterThan (fun n => some ⟨0, (n : Int), []⟩)
          ⟨"b", [3], some 0, true⟩ ⟨"a", [5, 6], some 0, true⟩ = false)) :=
  ⟨by decide,
   certBetterThan_characterization (fun n => some ⟨0, (n : Int), []⟩)
     ⟨"a", [5, 6], some 0, true⟩ ⟨"b", [3], some 0, true⟩
     ⟨0, 5, []⟩ ⟨0, 3, []⟩ (by decide) rfl rfl⟩

/-! ## C2 — doesCertSatisfy -/

/-- C2 counterexample. A certificate with SAN "EXAMPLE.COM" and a target
requiring "example.com": the key is known, the end entity parses, and the
spec's case-insensitive trailing-dot-stripped covering holds, yet
doesCertSatisfy is false because the Go code looks the satisfy names up in
a map keyed by the exact DNSNames strings. -/
theorem doesCertSatisfy_case_sensitive_counterexample :
    doesCertSatisfy (fun _ => some ⟨0, 0, ["EXAMPLE.COM"]⟩)
        ⟨"", [0], some 0, true⟩
        ⟨["example.com"], ["example.com"], true, "", 0⟩ = false ∧
    (⟨"", [0], some 0, true⟩ : Certificate).key.isSome = true ∧
    specSatisfyCovers ["EXAMPLE.COM"] ["example.com"] = true := by
  decide

/-- C2 (amended): doesCertSatisfy is true iff the chain is non-empty, the
private key is known, the end entity parses, and every satisfy name occurs
verbatim — by exact string comparison, with no case folding or trailing-dot
stripping at comparison time — among the certificate's DNSNames. -/
theorem doesCertSatisfy_characterization (parse : Nat → Option XCert)
    (c : Certificate) (t : Target) :
    doesCertSatisfy parse c t = true ↔
      c.certificates ≠ [] ∧ c.key.isSome = true ∧
      ∃ cc, parse (c.certificates.headD 0) = some cc ∧
        ∀ n ∈ t.satisfyNames, n ∈ cc.dnsNames := by
  unfold doesCertSatisfy
  by_cases h0 : c.certificates.length = 0
  · simp [h0, List.length_eq_zero.mp h0]
  · rw [if_neg h0]
    have hne : c.certificates ≠ [] := by
      simpa [List.length_eq_zero] using h0
    by_cases hk : c.key.isNone
    · rw [if_pos hk]
      simp [Option.isNone_iff_eq_none.mp hk]
    · rw [if_neg hk]
      have hks : c.key.isSome = true := by
        cases hc : c.key with
        | none => rw [hc] at hk; simp at hk
        | some v => rfl
      cases hp : parse (c.certificates.headD 0) with
      | none => simp [hp, hne, hks]
      | some cc =>
        simp [hp, hne, hks, List.all_eq_true, List.contains, List.elem_iff]

/-! ## C3 — renewTime / certificateNeedsRenewing -/

/-- C3: renewTime equals notAfter − min(30 days, (notAfter−notBefore)/3)
with Go's truncating integer division; certificateNeedsRenewing (for a
certificate with a parseable end entity) is true exactly when now has
reached that moment; and the two instances from the spec hold, reading the
spec's "10y" as 3650 days. -/
theorem renewTime_correct (nb na now t0 : Int) (parse : Nat → Option XCert)
    (c : Certificate) (cc : XCert)
    (hle : nb ≤ na) (hne : c.certificates ≠ [])
    (hp : parse (c.certificates.headD 0) = some cc) :
    renewTime nb na = na - min (30 * day) (Int.tdiv (na - nb) 3) ∧
    (certificateNeedsRenewing parse now c = true ↔
      renewTime cc.notBefore cc.notAfter ≤ now) ∧
    renewTime t0 (t0 + 90 * day) = t0 + 60 * day ∧
    renewTime t0 (t0 + 3650 * day) = t0 + 3650 * day - 30 * day := by
  refine ⟨?_, ?_, ?_, ?_⟩
  · show na - (if 30 * day < Int.tdiv (na - nb) 3 then 30 * day
        else Int.tdiv (na - nb) 3) = na - min (30 * day) (Int.tdiv (na - nb) 3)
    congr 1
    rcases lt_or_ge (30 * day) (Int.tdiv (na - nb) 3) with h | h
    · rw [if_pos h, min_eq_left h.le]
    · rw [if_neg (not_lt.mpr h), min_eq_right h]
  · unfold certificateNeedsRenewing
    rw [if_neg (by simpa [List.length_eq_zero] using hne), hp]
    simp [not_lt]
  · have h1 : t0 + 90 * day - t0 = 3 * (30 * day) := by ring
    show t0 + 90 * day - (if 30 * day < Int.tdiv (t0 + 90 * day - t0) 3
        then 30 * day else Int.tdiv (t0 + 90 * day - t0) 3) = t0 + 60 * day
    rw [h1, Int.mul_tdiv_cancel_left _ (by norm_num), if_neg (lt_irrefl _)]
    ring
  · have h1 : t0 + 3650 * day - t0 = 3650 * day := by ring
    show t0 + 3650 * day - (if 30 * day < Int.tdiv (t0 + 3650 * day - t0) 3
        then 30 * day else Int.tdiv (t0 + 3650 * day - t0) 3) =
        t0 + 3650 * day - 30 * day
    rw [h1]
    have h2 : Int.tdiv (3650 * day) 3 = 105120000 * 1000000000 := by decide
    rw [h2, if_pos (by decide)]

/-- Witness for the C3 theorem at nb = 0, na = 90 days, now = 0, t0 = 5,
with a one-blob certificate parsing to that window. -/
theorem renewTime_correct_witness :
    ((0 : Int) ≤ 90 * day) ∧
    ((⟨"", [0], some 0, true⟩ : Certificate).certificates ≠ []) ∧
    (renewTime 0 (90 * day) = 90 * day - min (30 * day) (Int.tdiv (90 * day - 0) 3) ∧
     (certificateNeedsRenewing (fun _ => some ⟨0, 90 * day, []⟩) 0
         ⟨"", [0], some 0, true⟩ = true ↔
       renewTime (0 : Int) (90 * day) ≤ 0) ∧
     renewTime 5 (5 + 90 * day) = 5 + 60 * day ∧
     renewTime 5 (5 + 3650 * day) = 5 + 3650 * day - 30 * day) :=
  ⟨by decide, by decide,
   renewTime_correct 0 (90 * day) 0 5 (fun _ => some ⟨0, 90 * day, []⟩)
     ⟨"", [0], some 0, true⟩ ⟨0, 90 * day, []⟩ (by decide) (by decide) rfl⟩

end AcmeSpec

namespace AcmeSpec

/-! ## C9 — http-01 responder Start / selfTest / RequestDetectedChan -/

/-- C9 counterexample. With no hostname configured, Start succeeds without
performing any self-test (the GET oracle is none, i.e. any actual request
would have failed), no send was ever observed on the request-detection
channel, and yet RequestDetectedChan is non-nil because notifySupported is
never cleared — contradicting the claimed iff. -/
theorem httpResponder_no_hostname_counterexample :
    HttpResponder.start ⟨"", "ka", true, false, false⟩ none =
      Except.ok ⟨"", "ka", true, false, false⟩ ∧
    HttpResponder.requestDetectedChanNonNil ⟨"", "ka", true, false, false⟩ =
      true ∧
    (⟨"", "ka", true, false, false⟩ : HttpResponder).chanBuf = false :=
  ⟨rfl, rfl, rfl⟩

/-- C9 (amended): Start performs the self-test iff a hostname was
configured — with no hostname it succeeds whatever a GET would have
returned, leaving the state unchanged, so the channel stays exposed; with a
hostname it succeeds iff the GET returned 200 with a body equal, after
trimming, to the key authorization, and on failure the returned state is
the stopped one (Stop was called); after a successful Start with a
hostname, RequestDetectedChan is non-nil iff the self-test probe observed a
send on the request-detection channel. -/
theorem httpResponder_start_behaviour (s : HttpResponder)
    (get : Option (Nat × String)) (hns : s.notifySupported = true) :
    (s.hostname = "" → s.start get = Except.ok s) ∧
    (s.hostname ≠ "" →
      ((∃ s2, s.start get = Except.ok s2) ↔
        ∃ body, get = some (200, body) ∧ trimSpace body = s.ka)) ∧
    (s.hostname ≠ "" → ∀ s2, s.start get = Except.ok s2 →
      (s2.requestDetectedChanNonNil = true ↔ s.chanBuf = true)) ∧
    (∀ s2, s.start get = Except.error s2 → s2.stopped = true) := by
  by_cases hh : s.hostname = ""
  · refine ⟨fun _ => ?_, fun hcon => absurd hh hcon, fun hcon => absurd hh hcon,
      fun s2 h => ?_⟩
    · simp [HttpResponder.start, HttpResponder.selfTest, hh]
    · simp [HttpResponder.start, HttpResponder.selfTest, hh] at h
  · refine ⟨fun hcon => absurd hcon hh, fun _ => ?_, fun _ => ?_, ?_⟩
    · rcases get with _ | ⟨status, body⟩
      · simp [HttpResponder.start, HttpResponder.selfTest, hh]
      · by_cases hst : status = 200
        · subst hst
          by_cases htr : trimSpace body = s.ka
          · simp [HttpResponder.start, HttpResponder.selfTest, hh, htr]
          · simp [HttpResponder.start, HttpResponder.selfTest, hh, htr]
        · simp [HttpResponder.start, HttpResponder.selfTest, hh, hst]
    · intro s2 h
      rcases get with _ | ⟨status, body⟩
      · simp [HttpResponder.start, HttpResponder.selfTest, hh] at h
      · by_cases hst : status = 200
        · subst hst
          by_cases htr : trimSpace body = s.ka
          · simp [HttpResponder.start, HttpResponder.selfTest, hh, htr] at h
            subst h
            simp only [HttpResponder.requestDetectedChanNonNil]
            by_cases hcb : s.chanBuf = true
            · simp [hcb, hns]
            · simp only [Bool.not_eq_true] at hcb
              simp [hcb]
          · simp [HttpResponder.start, HttpResponder.selfTest, hh, htr] at h
        · simp [HttpResponder.start, HttpResponder.selfTest, hh, hst] at h
    · intro s2 h
      rcases get with _ | ⟨status, body⟩
      · simp [HttpResponder.start, HttpResponder.selfTest, hh] at h
        rw [← h]
        rfl
      · by_cases hst : status = 200
        · subst hst
          by_cases htr : trimSpace body = s.ka
          · simp [HttpResponder.start, HttpResponder.selfTest, hh, htr] at h
          · simp [HttpResponder.start, HttpResponder.selfTest, hh, htr] at h
            rw [← h]
            rfl
        · simp [HttpResponder.start, HttpResponder.selfTest, hh, hst] at h
          rw [← h]
          rfl

/-- Witness for the C9 theorem: hostname "h", a pending channel send, and a
GET answering 200 with " ka " whose trim equals the key authorization. -/
theorem httpResponder_start_behaviour_witness :
    ((⟨"h", "ka", true, true, false⟩ : HttpResponder).notifySupported = true) ∧
    (((⟨"h", "ka", true, true, false⟩ : HttpResponder).hostname = "" →
        HttpResponder.start ⟨"h", "ka", true, true, false⟩
          (some (200, " ka ")) = Except.ok ⟨"h", "ka", true, true, false⟩) ∧
     ((⟨"h", "ka", true, true, false⟩ : HttpResponder).hostname ≠ "" →
       ((∃ s2, HttpResponder.start ⟨"h", "ka", true, true, false⟩
            (some (200, " ka ")) = Except.ok s2) ↔
         ∃ body, (some (200, " ka ") : Option (Nat × String)) =
             some (200, body) ∧
           trimSpace body = (⟨"h", "ka", true, true, false⟩ : HttpResponder).ka)) ∧
     ((⟨"h", "ka", true, true, false⟩ : HttpResponder).hostname ≠ "" →
       ∀ s2, HttpResponder.start ⟨"h", "ka", true, true, false⟩
           (some (200, " ka ")) = Except.ok s2 →
         (s2.requestDetectedChanNonNil = true ↔
           (⟨"h", "ka", true, true, false⟩ : HttpResponder).chanBuf = true)) ∧
     (∀ s2, HttpResponder.start ⟨"h", "ka", true, true, false⟩
         (some (200, " ka ")) = Except.error s2 → s2.stopped = true)) :=
  ⟨rfl, httpResponder_start_behaviour ⟨"h", "ka", true, true, false⟩
    (some (200, " ka ")) rfl⟩

/-! ## C10 — defaulting satisfy.names from the desired/ filename -/

/-- C10: a desired/ file whose YAML carries neither satisfy.names nor the
legacy top-level names is not an error: the filename itself becomes the
single satisfy name, and is then normalized and hostname-validated like any
other name — if the validator accepts the normalized filename (and the
account resolves), validation succeeds with exactly that single name; if it
rejects it, validateTargetInner fails and any loadTargets pass containing
the file fails with it. -/
theorem validateTargetInner_default_filename (validHostname : String → Bool)
    (getAccount : String → Except String String) (desiredKey : String)
    (raw : RawTarget) (acct : String)
    (hsat : raw.satisfyNames = []) (hleg : raw.legacyNames = []) :
    (validHostname (normalizeName desiredKey) = true →
      getAccount (if raw.provider = "" then raw.legacyProvider else raw.provider) =
        Except.ok acct →
      validateTargetInner validHostname getAccount desiredKey raw =
        Except.ok
          { satisfyNames := [normalizeName desiredKey],
            requestNames :=
              if raw.requestNames.isEmpty then [normalizeName desiredKey]
              else raw.requestNames,
            implicitNames := raw.requestNames.isEmpty,
            provider := if raw.provider = "" then raw.legacyProvider
              else raw.provider,
            account := acct }) ∧
    (validHostname (normalizeName desiredKey) = false →
      validateTargetInner validHostname getAccount desiredKey raw =
        Except.error ("invalid target: " ++ desiredKey ++ ": " ++
          ("invalid hostname: " ++ normalizeName desiredKey)) ∧
      ∀ files : List (String × RawTarget), (desiredKey, raw) ∈ files →
        ∃ e, loadTargets validHostname getAccount files = Except.error e) := by
  constructor
  · intro hv hacc
    by_cases hreq : raw.requestNames = []
    · simp [validateTargetInner, normalizeNames, hsat, hleg, hv, hacc, hreq]
    · simp [validateTargetInner, normalizeNames, hsat, hleg, hv, hacc, hreq]
  · intro hv
    have herr : validateTargetInner validHostname getAccount desiredKey raw =
        Except.error ("invalid target: " ++ desiredKey ++ ": " ++
          ("invalid hostname: " ++ normalizeName desiredKey)) := by
      simp [validateTargetInner, normalizeNames, hsat, hleg, hv]
    refine ⟨herr, ?_⟩
    intro files hmem
    induction files with
    | nil => cases hmem
    | cons hd tl ih =>
      obtain ⟨k2, r2⟩ := hd
      rcases List.mem_cons.mp hmem with heq | hmem2
      · injection heq with h1 h2
        subst h1
        subst h2
        simp only [loadTargets, herr]
        exact ⟨_, rfl⟩
      · rcases ih hmem2 with ⟨e, he⟩
        simp only [loadTargets]
        cases hval : validateTargetInner validHostname getAccount k2 r2 with
        | error e2 => exact ⟨e2, rfl⟩
        | ok t => rw [he]; exact ⟨e, rfl⟩

/-- Witness for the C10 theorem: an empty raw target loaded from the file
"WWW.Example.Org." with an always-accepting validator and a resolving
account oracle. -/
theorem validateTargetInner_default_filename_witness :
    ((⟨[], [], [], "", "", 0⟩ : RawTarget).satisfyNames = []) ∧
    ((⟨[], [], [], "", "", 0⟩ : RawTarget).legacyNames = []) ∧
    (((fun _ => true) (normalizeName "WWW.Example.Org.") = true →
      (fun _ => Except.ok "acct" : String → Except String String)
          (if (⟨[], [], [], "", "", 0⟩ : RawTarget).provider = ""
           then (⟨[], [], [], "", "", 0⟩ : RawTarget).legacyProvider
           else (⟨[], [], [], "", "", 0⟩ : RawTarget).provider) =
        Except.ok "acct" →
      validateTargetInner (fun _ => true) (fun _ => Except.ok "acct")
          "WWW.Example.Org." ⟨[], [], [], "", "", 0⟩ =
        Except.ok
          { satisfyNames := [normalizeName "WWW.Example.Org."],
            requestNames :=
              if (⟨[], [], [], "", "", 0⟩ : RawTarget).requestNames.isEmpty
              then [normalizeName "WWW.Example.Org."]
              else (⟨[], [], [], "", "", 0⟩ : RawTarget).requestNames,
            implicitNames :=
              (⟨[], [], [], "", "", 0⟩ : RawTarget).requestNames.isEmpty,
            provider :=
              if (⟨[], [], [], "", "", 0⟩ : RawTarget).provider = ""
              then (⟨[], [], [], "", "", 0⟩ : RawTarget).legacyProvider
              else (⟨[], [], [], "", "", 0⟩ : RawTarget).provider,
            account := "acct" }) ∧
     ((fun _ => true : String → Bool) (normalizeName "WWW.Example.Org.") = false →
      validateTargetInner (fun _ => true) (fun _ => Except.ok "acct")
          "WWW.Example.Org." ⟨[], [], [], "", "", 0⟩ =
        Except.error ("invalid target: " ++ "WWW.Example.Org." ++ ": " ++
          ("invalid hostname: " ++ normalizeName "WWW.Example.Org.")) ∧
      ∀ files : List (String × RawTarget),
        ("WWW.Example.Org.", ⟨[], [], [], "", "", 0⟩) ∈ files →
        ∃ e, loadTargets (fun _ => true) (fun _ => Except.ok "acct") files =
          Except.error e)) :=
  ⟨rfl, rfl,
   validateTargetInner_default_filename (fun _ => true)
     (fun _ => Except.ok "acct") "WWW.Example.Org." ⟨[], [], [], "", "", 0⟩
     "acct" rfl rfl⟩

end AcmeSpec

namespace AcmeSpec

/-! ## C5 — AddTarget -/

/-- Discriminator used to state that a result is not an error return. -/
def AddTargetResult.isFailure : AddTargetResult → Bool
  | .failure _ => true
  | _ => false

/-- C5 counterexample. AddTarget of a target with empty satisfy.names
returns nil (a silent no-op) rather than an error. -/
theorem addTarget_empty_names_counterexample :
    addTarget (fun _ => true) [] "r" ⟨[], [], false, "", 0⟩ =
      AddTargetResult.noop ∧
    (addTarget (fun _ => true) [] "r" ⟨[], [], false, "", 0⟩).isFailure =
      false := by
  decide

/-- C5 (amended): AddTarget is a silent no-op — nil result, no store
mutation — when satisfy.names is empty; it returns an "invalid hostname"
error when some satisfy name fails validation; it is a no-op when an
existing target's satisfy.names contains all the new names; otherwise it
serializes the target under the filename formed from the first satisfy
name, a dash and the random suffix, and the serialized record omits
request.names exactly when they were defaulted from satisfy.names. -/
theorem addTarget_behaviour (validHostname : String → Bool)
    (targets : List Target) (randStr : String) (tgt : Target) :
    (tgt.satisfyNames = [] →
      addTarget validHostname targets randStr tgt = AddTargetResult.noop) ∧
    ((∃ n ∈ tgt.satisfyNames, validHostname n = false) →
      ∃ n, n ∈ tgt.satisfyNames ∧ validHostname n = false ∧
        addTarget validHostname targets randStr tgt =
          AddTargetResult.failure ("invalid hostname: " ++ n)) ∧
    (tgt.satisfyNames ≠ [] →
      (∀ n ∈ tgt.satisfyNames, validHostname n = true) →
      (∃ t ∈ targets, ∀ n ∈ tgt.satisfyNames, n ∈ t.satisfyNames) →
      addTarget validHostname targets randStr tgt = AddTargetResult.noop) ∧
    (tgt.satisfyNames ≠ [] →
      (∀ n ∈ tgt.satisfyNames, validHostname n = true) →
      (¬ ∃ t ∈ targets, ∀ n ∈ tgt.satisfyNames, n ∈ t.satisfyNames) →
      addTarget validHostname targets randStr tgt =
        AddTargetResult.serialized
          (tgt.satisfyNames.headD "" ++ "-" ++ randStr)
          (serializeTargetRecord tgt) ∧
      (serializeTargetRecord tgt).requestNames =
        (if tgt.implicitNames then [] else tgt.requestNames)) := by
  refine ⟨?_, ?_, ?_, ?_⟩
  · intro he
    simp [addTarget, he]
  · intro hbad
    have hfind : (tgt.satisfyNames.find? fun n => !(validHostname n)).isSome := by
      apply List.find?_isSome.mpr
      rcases hbad with ⟨n, hn, hv⟩
      exact ⟨n, hn, by simp [hv]⟩
    rcases Option.isSome_iff_exists.mp hfind with ⟨n, hn⟩
    have hmem : n ∈ tgt.satisfyNames := List.mem_of_find?_eq_some hn
    have hv : validHostname n = false := by
      have := List.find?_some hn
      simpa using this
    refine ⟨n, hmem, hv, ?_⟩
    have hne : ¬ tgt.satisfyNames.isEmpty = true := by
      simp [List.isEmpty_iff]
      exact List.ne_nil_of_mem hmem
    simp only [addTarget]
    rw [if_neg hne, hn]
  · intro hne hval hsup
    have hfind : (tgt.satisfyNames.find? fun n => !(validHostname n)) = none := by
      apply List.find?_eq_none.mpr
      intro n hn
      simp [hval n hn]
    have hsup2 : (findTargetWithAllNames targets tgt.satisfyNames).isSome := by
      apply List.find?_isSome.mpr
      rcases hsup with ⟨t, ht, hall⟩
      refine ⟨t, ht, ?_⟩
      simp only [List.all_eq_true]
      intro n hn
      simp [containsName, List.elem_iff, hall n hn]
    rcases Option.isSome_iff_exists.mp hsup2 with ⟨t0, ht0⟩
    simp only [addTarget]
    rw [if_neg (by simp [List.isEmpty_iff, hne]), hfind, ht0]
  · intro hne hval hnosup
    have hfind : (tgt.satisfyNames.find? fun n => !(validHostname n)) = none := by
      apply List.find?_eq_none.mpr
      intro n hn
      simp [hval n hn]
    have hsup2 : findTargetWithAllNames targets tgt.satisfyNames = none := by
      apply List.find?_eq_none.mpr
      intro t ht
      simp only [List.all_eq_true]
      push_neg at hnosup
      rcases hnosup t ht with ⟨n, hn, hnot⟩
      intro hall
      exact hnot (by simpa [containsName, List.elem_iff] using hall n hn)
    constructor
    · simp only [addTarget]
      rw [if_neg (by simp [List.isEmpty_iff, hne]), hfind, hsup2]
      rcases hsn : tgt.satisfyNames with _ | ⟨n0, rest⟩
      · exact absurd hsn hne
      · simp [makeUniqueTargetName, hsn, String.append_assoc]
    · simp [serializeTargetRecord]
      split <;> simp

/-- Witness for the C5 theorem: adding ["a"] with implicit request names to
an empty store serializes under "a-r" with request.names omitted. -/
theorem addTarget_behaviour_witness :
    addTarget (fun _ => true) [] "r" ⟨["a"], ["a"], true, "", 0⟩ =
      AddTargetResult.serialized "a-r" ⟨["a"], [], true, "", 0⟩ := by
  have h := (addTarget_behaviour (fun _ => true) [] "r"
    ⟨["a"], ["a"], true, "", 0⟩).2.2.2 (by simp) (by simp) (by simp)
  rw [h.1]
  decide

/-! ## C6 — RemoveTargetHostname -/

/-- C6 counterexample. A target with satisfy.names = ["a"] but
request.names = ["a","b"]: removing hostname "b" leaves the target — and in
particular its request.names — completely untouched, because the loop skips
every target whose satisfy.names does not contain the hostname. -/
theorem removeTargetHostname_request_only_counterexample :
    removeTargetHostname [("f1", ⟨["a"], ["a", "b"], false, "", 0⟩)] "b" =
      ([("f1", ⟨["a"], ["a", "b"], false, "", 0⟩)], []) ∧
    "b" ∈ (⟨["a"], ["a", "b"], false, "", 0⟩ : Target).requestNames := by
  constructor
  · decide
  · decide

/-- C6 (amended): RemoveTargetHostname(h) affects exactly the targets whose
satisfy.names contains h: for those it removes h from both satisfy.names
and request.names, deletes the target's desired/ file when satisfy.names
became empty and reserializes it otherwise; targets whose satisfy.names
does not contain h are left untouched even when h occurs in their
request.names. -/
theorem removeTargetHostname_characterization
    (targets : List (String × Target)) (h : String) :
    removeTargetHostname targets h =
      (targets.map fun p =>
        if h ∈ p.2.satisfyNames then
          (p.1, { p.2 with
            satisfyNames := removeStringFromList p.2.satisfyNames h,
            requestNames := removeStringFromList p.2.requestNames h })
        else p,
       targets.filterMap fun p =>
        if h ∈ p.2.satisfyNames then
          some (if removeStringFromList p.2.satisfyNames h = [] then
              DiskOp.delete p.1
            else
              DiskOp.serialize p.1 { p.2 with
                satisfyNames := removeStringFromList p.2.satisfyNames h,
                requestNames := removeStringFromList p.2.requestNames h })
        else none) := by
  induction targets with
  | nil => rfl
  | cons hd tl ih =>
    obtain ⟨fn, tgt⟩ := hd
    simp only [removeTargetHostname, ih, List.map_cons, List.filterMap_cons]
    by_cases hm : h ∈ tgt.satisfyNames
    · have hc : (!containsName tgt.satisfyNames h) = false := by
        simp [containsName, List.elem_iff, hm]
      rw [hc]
      simp only [Bool.false_eq_true, if_false, if_pos hm]
      by_cases hemp : removeStringFromList tgt.satisfyNames h = []
      · rw [if_pos (by simp [List.isEmpty_iff, hemp]), if_pos hemp]
      · rw [if_neg (by simp [List.isEmpty_iff, hemp]), if_neg hemp]
    · have hc : (!containsName tgt.satisfyNames h) = true := by
        simp [containsName, List.elem_iff, hm]
      rw [hc]
      simp [hm]

end AcmeSpec

namespace AcmeSpec

/-! ## C8 — determineNecessaryAuthorizations -/

/-- Membership in the needed set built from Request.Names: the
insert-if-absent fold accumulates exactly the input names on top of the
seed. -/
theorem foldl_addName_mem (ns : List String) :
    ∀ (m : List String) (n : String),
      (n ∈ ns.foldl (fun m n2 => if m.contains n2 then m else n2 :: m) m) ↔
        (n ∈ m ∨ n ∈ ns) := by
  induction ns with
  | nil =>
    intro m n
    simp
  | cons hd tl ih =>
    intro m n
    simp only [List.foldl_cons]
    by_cases hc : m.contains hd
    · have hdm : hd ∈ m := List.elem_iff.mp hc
      rw [if_pos hc, ih]
      simp only [List.mem_cons]
      constructor
      · rintro (h1 | h1)
        · exact Or.inl h1
        · exact Or.inr (Or.inr h1)
      · rintro (h1 | h1 | h1)
        · exact Or.inl h1
        · exact Or.inl (h1 ▸ hdm)
        · exact Or.inr h1
    · rw [if_neg hc, ih]
      simp only [List.mem_cons]
      tauto

/-- Membership after the authorization-deletion fold: a name survives iff
it was in the set and no valid authorization carries it. -/
theorem foldl_delete_mem (now : Int) (auths : List Authorization) :
    ∀ (m : List String) (n : String),
      (n ∈ auths.foldl
          (fun m a =>
            if a.isValid now then m.filter (fun x => !(x == a.name)) else m)
          m) ↔
        (n ∈ m ∧ ∀ a ∈ auths, a.isValid now = true → a.name ≠ n) := by
  induction auths with
  | nil =>
    intro m n
    simp
  | cons hd tl ih =>
    intro m n
    simp only [List.foldl_cons]
    by_cases hv : hd.isValid now
    · rw [if_pos hv, ih]
      simp only [List.mem_filter]
      constructor
      · rintro ⟨⟨h1, h2⟩, h3⟩
        have hne : n ≠ hd.name := by simpa using h2
        refine ⟨h1, ?_⟩
        intro a ha hva
        rcases List.mem_cons.mp ha with rfl | ha2
        · exact fun heq => hne heq.symm
        · exact h3 a ha2 hva
      · rintro ⟨h1, h2⟩
        have hne : hd.name ≠ n := h2 hd (List.mem_cons_self hd tl) hv
        refine ⟨⟨h1, ?_⟩, ?_⟩
        · simpa using fun heq => hne heq.symm
        · intro a ha hva
          exact h2 a (List.mem_cons_of_mem hd ha) hva
    · rw [if_neg hv, ih]
      have hv2 : ¬ hd.isValid now = true := hv
      constructor
      · rintro ⟨h1, h2⟩
        refine ⟨h1, ?_⟩
        intro a ha hva
        rcases List.mem_cons.mp ha with rfl | ha2
        · exact absurd hva hv2
        · exact h2 a ha2 hva
      · rintro ⟨h1, h2⟩
        refine ⟨h1, ?_⟩
        intro a ha hva
        exact h2 a (List.mem_cons_of_mem hd ha) hva

/-- C8 counterexample. request.names = ["a","a"] with no authorizations:
the result lists the needed name "a" twice — once per occurrence — so
"each needed name listed once" fails. -/
theorem determineNecessaryAuthorizations_duplicate_counterexample :
    determineNecessaryAuthorizations 0 ["a", "a"] [] = ["a", "a"] ∧
    ¬ List.Nodup (determineNecessaryAuthorizations 0 ["a", "a"] []) := by
  constructor
  · rfl
  · decide

/-- C8 (amended): determineNecessaryAuthorizations returns exactly those
entries of request.names for which the account holds no valid (now <
expiry) authorization of that name, in request.names order — keeping one
entry per occurrence in request.names, so duplicated request names are
listed as often as they occur. -/
theorem determineNecessaryAuthorizations_characterization
    (now : Int) (requestNames : List String) (auths : List Authorization) :
    determineNecessaryAuthorizations now requestNames auths =
      requestNames.filter fun n =>
        !(auths.any fun a => a.isValid now && a.name == n) := by
  unfold determineNecessaryAuthorizations
  apply List.filter_congr
  intro n hn
  rw [Bool.eq_iff_iff]
  constructor
  · intro hcont
    have hmem := List.elem_iff.mp hcont
    rw [foldl_delete_mem] at hmem
    rcases hmem with ⟨_, hforall⟩
    simp only [Bool.not_eq_true', List.any_eq_false]
    intro a ha
    by_cases hva : a.isValid now
    · simp [hva]
      exact hforall a ha hva
    · simp [hva]
  · intro hno
    apply List.elem_iff.mpr
    rw [foldl_delete_mem]
    constructor
    · rw [foldl_addName_mem]
      exact Or.inr hn
    · intro a ha hva heq
      simp only [Bool.not_eq_true', List.any_eq_false] at hno
      have := hno a ha
      rw [hva, heq] at this
      simp at this

end AcmeSpec

namespace AcmeSpec

/-! ## C7 — reconcile target pass error collection -/

/-- A string of length zero is the empty string. -/
theorem string_length_zero_eq_empty (s : String) (h : s.length = 0) :
    s = "" := by
  cases s with
  | mk data =>
    cases data with
    | nil => rfl
    | cons c cs => simp [String.length] at h

/-- Appending anything to a non-empty string stays non-empty. -/
theorem append_ne_empty_left (s t : String) (h : s ≠ "") : s ++ t ≠ "" := by
  intro hc
  apply h
  apply string_length_zero_eq_empty
  have h2 := congrArg String.length hc
  rw [String.length_append] at h2
  have h3 : ("" : String).length = 0 := rfl
  rw [h3] at h2
  omega

/-- Proof-side helper: the "; \n"-prefixed continuation of a clause list. -/
def specJoinTail : List String → String
  | [] => ""
  | e :: rest => "; \n" ++ e ++ specJoinTail rest

/-- Written from the spec's words (claim C7): per-target clauses joined
into a multi-line list, one "; \n" separator between consecutive
clauses. -/
def specJoinClauses : List String → String
  | [] => ""
  | [e] => e
  | e :: rest => e ++ "; \n" ++ specJoinClauses rest

/-- A non-empty clause list joins to its head followed by the prefixed
tail. -/
theorem specJoinClauses_cons (rest : List String) :
    ∀ e : String, specJoinClauses (e :: rest) = e ++ specJoinTail rest := by
  induction rest with
  | nil =>
    intro e
    show e = e ++ ""
    simp
  | cons f rs ih =>
    intro e
    show e ++ "; \n" ++ specJoinClauses (f :: rs) =
      e ++ ("; \n" ++ f ++ specJoinTail rs)
    rw [ih f]
    simp [String.append_assoc]

/-- The MultiError.Error accumulation loop, run from a non-empty prefix,
appends the "; \n"-prefixed continuation. -/
theorem multiErrorFold_go (xs : List String) :
    ∀ s : String, s ≠ "" →
      xs.foldl (fun s e => (if s ≠ "" then s ++ "; \n" else s) ++ e) s =
        s ++ specJoinTail xs := by
  induction xs with
  | nil =>
    intro s hs
    show s = s ++ ""
    simp
  | cons e rest ih =>
    intro s hs
    simp only [List.foldl_cons]
    rw [if_pos hs,
      ih (s ++ "; \n" ++ e) (append_ne_empty_left _ _ (append_ne_empty_left _ _ hs))]
    show s ++ "; \n" ++ e ++ specJoinTail rest =
      s ++ ("; \n" ++ e ++ specJoinTail rest)
    simp [String.append_assoc]

/-- For clause lists without empty components — as produced by
TargetSpecificError — the Go accumulation loop coincides with the spec's
separator join. -/
theorem multiErrorJoin_eq_specJoin (errs : List String)
    (hne : ∀ e ∈ errs, e ≠ "") :
    multiErrorJoin errs = specJoinClauses errs := by
  cases errs with
  | nil => rfl
  | cons e rest =>
    unfold multiErrorJoin
    simp only [List.foldl_cons]
    rw [if_neg (by simp)]
    have he : e ≠ "" := hne e (List.mem_cons_self e rest)
    have hemp : ("" : String) ++ e = e := by simp
    rw [hemp, multiErrorFold_go rest e he, specJoinClauses_cons]

/-- The per-target accumulation loop of reconcile never stops early: run
from any prefix it appends one entry per failing target, in order. -/
theorem reconcileTargets_foldl (needsWork : Target → Bool)
    (request : Target → Option String) (ts : List Target) :
    ∀ acc : List (Target × String),
      ts.foldl
        (fun merr t =>
          if needsWork t then
            match request t with
            | some e => merr ++ [(t, e)]
            | none => merr
          else merr)
        acc =
      acc ++ ts.filterMap (fun t =>
        if needsWork t then (request t).map (fun e => (t, e)) else none) := by
  induction ts with
  | nil =>
    intro acc
    simp
  | cons hd tl ih =>
    intro acc
    simp only [List.foldl_cons, List.filterMap_cons]
    by_cases hw : needsWork hd
    · rw [if_pos hw, if_pos hw]
      cases hr : request hd with
      | none =>
        rw [ih]
        simp
      | some e =>
        rw [ih]
        simp
    · rw [if_neg hw, if_neg hw, ih]

/-- C7: the reconcile target pass processes every target — a per-target
failure never aborts the loop; each failure is wrapped as a
TargetSpecificError pair and collected, in target order, into the MultiError
the pass returns, which is nil exactly when no target failed; and the
MultiError renders as the fixed "the following errors occurred:" prefix
followed by "error satisfying target <T>: <e>" clauses joined with the
"; \n" separator. -/
theorem reconcile_collects_all_errors (needsWork : Target → Bool)
    (request : Target → Option String) (targets : List Target) :
    (reconcileTargets needsWork request targets =
      if (targets.filterMap fun t =>
            if needsWork t then (request t).map (fun e => (t, e)) else none) = []
      then none
      else some (targets.filterMap fun t =>
            if needsWork t then (request t).map (fun e => (t, e)) else none)) ∧
    ∀ merr : List (Target × String),
      reconcileErrorMessage merr =
        "the following errors occurred:\n" ++
          specJoinClauses (merr.map fun p =>
            targetSpecificErrorString p.1 p.2) := by
  constructor
  · simp only [reconcileTargets, reconcileTargets_foldl, List.nil_append]
    by_cases hemp : (targets.filterMap fun t =>
        if needsWork t then (request t).map (fun e => (t, e)) else none) = []
    · simp [hemp]
    · simp [hemp, List.length_eq_zero]
  · intro merr
    unfold reconcileErrorMessage multiErrorString
    rw [multiErrorJoin_eq_specJoin]
    intro e he
    rcases List.mem_map.mp he with ⟨p, _, rfl⟩
    unfold targetSpecificErrorString
    exact append_ne_empty_left _ _
      (append_ne_empty_left _ _ (append_ne_empty_left _ _ (by decide)))

end AcmeSpec

namespace AcmeSpec

/-! ## C4 — disjoinTargets: exactly-one ownership of every hostname -/

/-- Association-list lookup at a just-inserted key. -/
theorem lookup_insert_self (m : List (String × Nat)) (n : String) (v : Nat) :
    List.lookup n ((n, v) :: m) = some v := by
  simp [List.lookup]

/-- Association-list lookup skips a different key. -/
theorem lookup_insert_ne (m : List (String × Nat)) (n k : String) (v : Nat)
    (h : n ≠ k) : List.lookup n ((k, v) :: m) = List.lookup n m := by
  simp only [List.lookup]
  rw [beq_false_of_ne h]

/-- getD on a cons cell at index zero. -/
theorem getD_cons_zero (a : List String) (l : List (List String)) :
    (a :: l).getD 0 [] = a := rfl

/-- getD on a cons cell at a successor index. -/
theorem getD_cons_succ (a : List String) (l : List (List String)) (j : Nat) :
    (a :: l).getD (j + 1) [] = l.getD j [] := rfl

/-- getD on the empty list. -/
theorem getD_nil (j : Nat) : ([] : List (List String)).getD j [] = [] := by
  cases j <;> rfl

/-- What the mapping holds after one target's claim loop: n maps to i iff
it already did, or it was unmapped, occurs in the target's names, and i is
this target's index. -/
theorem claimNames_lookup (idx : Nat) (names : List String) :
    ∀ (m : List (String × Nat)) (n : String) (i : Nat),
      ((claimNames idx m names).2.lookup n = some i) ↔
        (m.lookup n = some i ∨
          (m.lookup n = none ∧ n ∈ names ∧ i = idx)) := by
  induction names with
  | nil =>
    intro m n i
    simp [claimNames]
  | cons hd tl ih =>
    intro m n i
    by_cases hc : (m.lookup hd).isSome
    · have heq : claimNames idx m (hd :: tl) = claimNames idx m tl := by
        simp [claimNames, hc]
      rw [heq, ih]
      by_cases hn : n = hd
      · subst hn
        rcases Option.isSome_iff_exists.mp hc with ⟨v, hv⟩
        simp [hv]
      · simp [List.mem_cons, hn]
    · have hnone : m.lookup hd = none := by
        cases hm : m.lookup hd
        · rfl
        · rw [hm] at hc
          simp at hc
      have heq : (claimNames idx m (hd :: tl)).2 =
          (claimNames idx ((hd, idx) :: m) tl).2 := by
        simp [claimNames, hc]
      rw [heq, ih]
      by_cases hn : n = hd
      · subst hn
        rw [lookup_insert_self, hnone]
        simp [eq_comm]
      · rw [lookup_insert_ne _ _ _ _ hn]
        simp [List.mem_cons, hn]

/-- Membership in one target's reducedNames: exactly its names that were
still unmapped when its claim loop ran. -/
theorem claimNames_reduced_mem (idx : Nat) (names : List String) :
    ∀ (m : List (String × Nat)) (n : String),
      (n ∈ (claimNames idx m names).1) ↔
        (n ∈ names ∧ m.lookup n = none) := by
  induction names with
  | nil =>
    intro m n
    simp [claimNames]
  | cons hd tl ih =>
    intro m n
    by_cases hc : (m.lookup hd).isSome
    · have heq : claimNames idx m (hd :: tl) = claimNames idx m tl := by
        simp [claimNames, hc]
      rw [heq, ih]
      by_cases hn : n = hd
      · subst hn
        rcases Option.isSome_iff_exists.mp hc with ⟨v, hv⟩
        simp [hv]
      · simp [List.mem_cons, hn]
    · have hnone : m.lookup hd = none := by
        cases hm : m.lookup hd
        · rfl
        · rw [hm] at hc
          simp at hc
      have heq : (claimNames idx m (hd :: tl)).1 =
          hd :: (claimNames idx ((hd, idx) :: m) tl).1 := by
        simp [claimNames, hc]
      rw [heq]
      by_cases hn : n = hd
      · subst hn
        simp [hnone]
      · simp only [List.mem_cons, hn, false_or]
        rw [ih, lookup_insert_ne _ _ _ _ hn]

/-- A name placed in any reducedNames list was unmapped on entry. -/
theorem disjoinAux_mem_none (ts : List (List String)) :
    ∀ (idx : Nat) (m : List (String × Nat)) (n : String) (j : Nat),
      n ∈ (disjoinAux ts idx m).1.getD j [] → m.lookup n = none := by
  induction ts with
  | nil =>
    intro idx m n j hmem
    rw [show (disjoinAux [] idx m).1 = [] from rfl, getD_nil] at hmem
    exact absurd hmem (List.not_mem_nil n)
  | cons t ts2 ih =>
    intro idx m n j hmem
    rw [show (disjoinAux (t :: ts2) idx m).1 =
        (claimNames idx m t).1 ::
          (disjoinAux ts2 (idx + 1) (claimNames idx m t).2).1 from rfl] at hmem
    cases j with
    | zero =>
      rw [getD_cons_zero] at hmem
      exact ((claimNames_reduced_mem idx t m n).mp hmem).2
    | succ j2 =>
      rw [getD_cons_succ] at hmem
      have hp2 := ih (idx + 1) (claimNames idx m t).2 n j2 hmem
      cases hm : m.lookup n with
      | none => rfl
      | some v =>
        have hv := (claimNames_lookup idx t m n v).mpr (Or.inl hm)
        rw [hp2] at hv
        cases hv

/-- The final mapping sends n to i iff it already did on entry, or n was
unmapped on entry and i is the absolute index of the reducedNames list that
received n. -/
theorem disjoinAux_lookup (ts : List (List String)) :
    ∀ (idx : Nat) (m : List (String × Nat)) (n : String) (i : Nat),
      ((disjoinAux ts idx m).2.lookup n = some i) ↔
        (m.lookup n = some i ∨
         (m.lookup n = none ∧
          ∃ j, i = idx + j ∧ n ∈ (disjoinAux ts idx m).1.getD j [])) := by
  induction ts with
  | nil =>
    intro idx m n i
    constructor
    · intro h
      exact Or.inl h
    · rintro (h | ⟨hn, j, hij, hmem⟩)
      · exact h
      · rw [show (disjoinAux [] idx m).1 = [] from rfl, getD_nil] at hmem
        exact absurd hmem (List.not_mem_nil n)
  | cons t ts2 ih =>
    intro idx m n i
    have hq2 : (disjoinAux (t :: ts2) idx m).2 =
        (disjoinAux ts2 (idx + 1) (claimNames idx m t).2).2 := rfl
    have hq1 : (disjoinAux (t :: ts2) idx m).1 =
        (claimNames idx m t).1 ::
          (disjoinAux ts2 (idx + 1) (claimNames idx m t).2).1 := rfl
    rw [hq2, ih, hq1]
    cases hm : m.lookup n with
    | some v =>
      have hpv : (claimNames idx m t).2.lookup n = some v :=
        (claimNames_lookup idx t m n v).mpr (Or.inl hm)
      rw [hpv]
      simp
    | none =>
      by_cases hn : n ∈ t
      · have hpv : (claimNames idx m t).2.lookup n = some idx :=
          (claimNames_lookup idx t m n idx).mpr (Or.inr ⟨hm, hn, rfl⟩)
        rw [hpv]
        constructor
        · rintro (h | ⟨h, _⟩)
          · injection h with h2
            right
            refine ⟨rfl, 0, by omega, ?_⟩
            rw [getD_cons_zero]
            exact (claimNames_reduced_mem idx t m n).mpr ⟨hn, hm⟩
          · cases h
        · rintro (h | ⟨_, j, hij, hmemj⟩)
          · cases h
          · cases j with
            | zero =>
              left
              have h6 : i = idx := by omega
              rw [h6]
            | succ j2 =>
              rw [getD_cons_succ] at hmemj
              have h5 := disjoinAux_mem_none ts2 (idx + 1)
                (claimNames idx m t).2 n j2 hmemj
              rw [hpv] at h5
              cases h5
      · have hpnone : (claimNames idx m t).2.lookup n = none := by
          cases hq : (claimNames idx m t).2.lookup n with
          | none => rfl
          | some v =>
            rcases (claimNames_lookup idx t m n v).mp hq with h1 | ⟨_, h2, _⟩
            · rw [hm] at h1
              cases h1
            · exact absurd h2 hn
        rw [hpnone]
        constructor
        · rintro (h | ⟨_, j, hij, hmemj⟩)
          · cases h
          · right
            refine ⟨rfl, j + 1, by omega, ?_⟩
            rw [getD_cons_succ]
            exact hmemj
        · rintro (h | ⟨_, j, hij, hmemj⟩)
          · cases h
          · cases j with
            | zero =>
              rw [getD_cons_zero] at hmemj
              exact absurd ((claimNames_reduced_mem idx t m n).mp hmemj).1 hn
            | succ j2 =>
              rw [getD_cons_succ] at hmemj
              right
              exact ⟨rfl, j2, by omega, hmemj⟩

/-- Every name of every processed target ends up mapped. -/
theorem disjoinAux_lookup_isSome (ts : List (List String)) :
    ∀ (idx : Nat) (m : List (String × Nat)) (n : String),
      ((∃ t, t ∈ ts ∧ n ∈ t) ∨ (m.lookup n).isSome = true) →
      ((disjoinAux ts idx m).2.lookup n).isSome = true := by
  induction ts with
  | nil =>
    intro idx m n h
    rcases h with ⟨t, ht, _⟩ | h2
    · exact absurd ht (List.not_mem_nil t)
    · exact h2
  | cons t ts2 ih =>
    intro idx m n h
    have hq2 : (disjoinAux (t :: ts2) idx m).2 =
        (disjoinAux ts2 (idx + 1) (claimNames idx m t).2).2 := rfl
    rw [hq2]
    apply ih
    rcases h with ⟨t2, ht2, hn⟩ | hm
    · rcases List.mem_cons.mp ht2 with rfl | ht3
      · right
        cases hm2 : m.lookup n with
        | some v =>
          have hv := (claimNames_lookup idx t2 m n v).mpr (Or.inl hm2)
          rw [hv]
          rfl
        | none =>
          have hv := (claimNames_lookup idx t2 m n idx).mpr
            (Or.inr ⟨hm2, hn, rfl⟩)
          rw [hv]
          rfl
      · left
        exact ⟨t2, ht3, hn⟩
    · right
      rcases Option.isSome_iff_exists.mp hm with ⟨v, hv⟩
      have hv2 := (claimNames_lookup idx t m n v).mpr (Or.inl hv)
      rw [hv2]
      rfl

/-- C4: after disjoinTargets, every hostname occurring in some loaded
target's satisfy.names belongs to the reducedNames of exactly one target —
the target at the index the hostnameTargetMapping assigns to the hostname.
Proved for an arbitrary input order, hence in particular for the
targetGt-sorted order the Go code feeds the claim loop. -/
theorem disjoinTargets_exactly_one (ts : List (List String)) (name : String)
    (hmem : ∃ t, t ∈ ts ∧ name ∈ t) :
    ∃ i, (disjoinTargets ts).2.lookup name = some i ∧
      ∀ j, (name ∈ (disjoinTargets ts).1.getD j []) ↔ j = i := by
  have htot := disjoinAux_lookup_isSome ts 0 [] name (Or.inl hmem)
  rcases Option.isSome_iff_exists.mp htot with ⟨i, hi⟩
  refine ⟨i, hi, ?_⟩
  intro j
  constructor
  · intro hj
    have hj2 : (disjoinAux ts 0 []).2.lookup name = some (0 + j) :=
      (disjoinAux_lookup ts 0 [] name (0 + j)).mpr
        (Or.inr ⟨rfl, j, rfl, hj⟩)
    have h4 : some i = some (0 + j) := hi.symm.trans hj2
    injection h4 with h5
    omega
  · intro hj
    rw [hj]
    rcases (disjoinAux_lookup ts 0 [] name i).mp hi with h | ⟨_, j0, hij, hmemj⟩
    · cases h
    · have h6 : j0 = i := by omega
      rw [h6] at hmemj
      exact hmemj

/-- Witness for the C4 theorem: targets ["a","b"] and ["b","c"]; the shared
hostname "b" is owned exactly by the first target, which the mapping points
to. -/
theorem disjoinTargets_exactly_one_witness :
    (∃ t, t ∈ [["a", "b"], ["b", "c"]] ∧ "b" ∈ t) ∧
    (∃ i, (disjoinTargets [["a", "b"], ["b", "c"]]).2.lookup "b" = some i ∧
      ∀ j, ("b" ∈ (disjoinTargets [["a", "b"], ["b", "c"]]).1.getD j []) ↔
        j = i) :=
  ⟨⟨["a", "b"], by simp, by simp⟩,
   disjoinTargets_exactly_one _ _ ⟨["a", "b"], by simp, by simp⟩⟩

end AcmeSpec
